import Mathlib

/-!
Verification of the generic shortest-path search in pyutils (src/pyutils/dijkstra.py).

The Python function under study is:

  def dijkstra(start, get_edges, is_goal, start_cost=0):
      predecessor = {}
      queue = [(start_cost, start)]
      irrelevant_nodes = set()
      goal = None; goal_cost = None; found_goal = False
      while queue:
          cost, node = heappop(queue)
          if is_goal(node):
              goal, goal_cost, found_goal = node, cost, True
              break
          if node in irrelevant_nodes:
              continue
          irrelevant_nodes.add(node)
          for neighbor, edge_cost, edge in get_edges(node):
              new_cost = cost + edge_cost
              if neighbor not in predecessor or new_cost < predecessor[neighbor][1]:
                  predecessor[neighbor] = (node, edge_cost, edge)
                  heappush(queue, (new_cost, neighbor))
      if not found_goal:
          return None
      path = []
      n = goal
      while n != start:
          p, c, e = predecessor[n]
          path.append((p, c, e, n))
          n = p
      path.reverse()
      return (list(chain((start,), (n for _, _, _, n in path))), goal_cost, path)

Shallow embedding choices:
  - nodes, costs and edge labels are natural numbers (costs being Nat captures the
    non-negativity hypothesis of the spec; Python orders heap tuples (cost, node)
    lexicographically, which Nat nodes reproduce exactly);
  - the heap is a list from which the lexicographically least (cost, node) pair is
    popped, which is observationally identical to heapq on such tuples;
  - the predecessor dict is a function to Option, the settled set a list in insertion
    order (Python only adds to it after a membership test, so no duplicates arise);
  - both unbounded while-loops take explicit fuel; sufficiency of a concrete fuel
    bound for the main loop, and of (number of settled nodes + 1) for the
    reconstruction walk, is proved (claim C9), so the fueled model agrees with the
    Python wherever the latter terminates;
  - the run additionally returns a trace of the operations performed (pops, pushes,
    predecessor writes, settlements), pure instrumentation used to state the
    invariant claims; the computed result never depends on it.
-/

namespace PyUtils

/-- An edge as yielded by get_edges: (neighbor, edge_cost, edge_label). -/
abbrev Edge := Nat × Nat × Nat

/-- The lazily expanded graph, i.e. the caller-supplied get_edges function. -/
abbrev Graph := Nat → List Edge

/-- The predecessor dictionary: node to (predecessor node, edge cost, edge label). -/
abbrev PredMap := Nat → Option (Nat × Nat × Nat)

/-- Instrumentation events recording what one run of the search does. -/
inductive Ev where
  | pop (cost node : Nat)
  | settle (cost node : Nat)
  | push (cost node : Nat)
  | record (node predNode edgeCost label : Nat)
deriving DecidableEq, Repr

/-- The mutable locals of the Python while-loop: the heap contents, the
predecessor dictionary and the settled set (irrelevant_nodes, in insertion order). -/
structure DState where
  queue : List (Nat × Nat)
  pred : PredMap
  settled : List Nat

/-- Lexicographic order on (cost, node) pairs, exactly how Python compares
the heap tuples. -/
def lexLe (a b : Nat × Nat) : Prop :=
  a.1 < b.1 ∨ (a.1 = b.1 ∧ a.2 ≤ b.2)

instance (a b : Nat × Nat) : Decidable (lexLe a b) := by
  unfold lexLe; infer_instance

/-- heappop: remove and return the least (cost, node) pair of the heap. -/
def popMin : List (Nat × Nat) → Option ((Nat × Nat) × List (Nat × Nat))
  | [] => none
  | x :: xs =>
    match popMin xs with
    | none => some (x, [])
    | some (m, rest) => if lexLe x m then some (x, xs) else some (m, x :: rest)

/-- The relaxation guard of the source, verbatim:
neighbor not in predecessor or new_cost < predecessor[neighbor][1].
Note that index 1 of a record (node, edge_cost, edge) is the stored edge cost. -/
def improves (newCost : Nat) (r : Option (Nat × Nat × Nat)) : Bool :=
  match r with
  | none => true
  | some r => decide (newCost < r.2.1)

/-- The inner for-loop over get_edges(node): relax every yielded edge in order,
threading the predecessor dictionary and the heap, and record the performed
operations. -/
def relaxAll (node cost : Nat) :
    List Edge → PredMap → List (Nat × Nat) → PredMap × List (Nat × Nat) × List Ev
  | [], pred, q => (pred, q, [])
  | (neighbor, edgeCost, label) :: es, pred, q =>
    let newCost := cost + edgeCost
    if improves newCost (pred neighbor) then
      let pred' : PredMap := fun u => if u = neighbor then some (node, edgeCost, label) else pred u
      let r := relaxAll node cost es pred' ((newCost, neighbor) :: q)
      (r.1, r.2.1, Ev.record neighbor node edgeCost label :: Ev.push newCost neighbor :: r.2.2)
    else
      relaxAll node cost es pred q

/-- Outcome of the main while-loop. -/
inductive LoopOut where
  | goalFound (cost node : Nat) (s : DState)
  | exhausted (s : DState)
  | fuelOut (s : DState)

/-- The main while-loop of the search, with explicit fuel. -/
def loop (g : Graph) (isGoal : Nat → Bool) : Nat → DState → LoopOut × List Ev
  | 0, s => (.fuelOut s, [])
  | fuel + 1, s =>
    match popMin s.queue with
    | none => (.exhausted s, [])
    | some ((cost, node), rest) =>
      if isGoal node then
        (.goalFound cost node { s with queue := rest }, [Ev.pop cost node])
      else if node ∈ s.settled then
        let r := loop g isGoal fuel { s with queue := rest }
        (r.1, Ev.pop cost node :: r.2)
      else
        let rx := relaxAll node cost (g node) s.pred rest
        let r := loop g isGoal fuel ⟨rx.2.1, rx.1, s.settled ++ [node]⟩
        (r.1, Ev.pop cost node :: Ev.settle cost node :: (rx.2.2 ++ r.2))

/-- The reconstruction walk: follow predecessor records from n back to start,
collecting (predecessor, edge_cost, edge_label, node) steps in start-to-goal
order (the Python appends and reverses; building by front-recursion with a final
append is the same list). Fuel bounds the number of records followed. -/
def walk (pred : PredMap) (start : Nat) : Nat → Nat → Option (List (Nat × Nat × Nat × Nat))
  | 0, n => if n = start then some [] else none
  | fuel + 1, n =>
    if n = start then some []
    else
      match pred n with
      | none => none
      | some (p, c, e) => (walk pred start fuel p).map (fun steps => steps ++ [(p, c, e, n)])

/-- Result of a search: the explicit absent result (Python None), a found
(path, total_cost, steps) triple, or fuel exhaustion (proved unreachable for
adequately fueled runs on bounded graphs, see claim C9). -/
inductive DResult where
  | notFound
  | found (path : List Nat) (totalCost : Nat) (steps : List (Nat × Nat × Nat × Nat))
  | stuck
deriving DecidableEq, Repr

/-- The total cost carried by a reconstruction: start_cost plus the sum of the
steps' edge costs. -/
def stepsCost (startCost : Nat) (steps : List (Nat × Nat × Nat × Nat)) : Nat :=
  startCost + (steps.map (fun st => st.2.1)).sum

/-- The state at entry of the while-loop: heap [(start_cost, start)], empty
predecessor dictionary, empty settled set. -/
def initState (start startCost : Nat) : DState :=
  ⟨[(startCost, start)], fun _ => none, []⟩

/-- The embedded dijkstra, returning the result and the instrumentation trace.
The walk runs with fuel (number of settled nodes + 1), proved sufficient. -/
def dijkstra (start : Nat) (g : Graph) (isGoal : Nat → Bool) (startCost fuel : Nat) :
    DResult × List Ev :=
  match loop g isGoal fuel (initState start startCost) with
  | (.goalFound cost node s, tr) =>
    match walk s.pred start (s.settled.length + 1) node with
    | some steps => (.found (start :: steps.map (fun st => st.2.2.2)) cost steps, tr)
    | none => (.stuck, tr)
  | (.exhausted _, tr) => (.notFound, tr)
  | (.fuelOut _, tr) => (.stuck, tr)

/-- Reachability in the lazily expanded graph. -/
inductive Reach (g : Graph) (start : Nat) : Nat → Prop where
  | refl : Reach g start start
  | step {u v c l} : Reach g start u → (v, c, l) ∈ g u → Reach g start v

/-- The pop events of a trace, as (cost, node) pairs in order. -/
def popsOf : List Ev → List (Nat × Nat)
  | [] => []
  | Ev.pop c v :: tr => (c, v) :: popsOf tr
  | _ :: tr => popsOf tr

/-- The push events of a trace, as (cost, node) pairs in order. -/
def pushesOf : List Ev → List (Nat × Nat)
  | [] => []
  | Ev.push c v :: tr => (c, v) :: pushesOf tr
  | _ :: tr => pushesOf tr

/-- The cost with which node v is popped for the first time in a trace, if ever. -/
def firstPopOf (tr : List Ev) (v : Nat) : Option Nat :=
  ((popsOf tr).filter (fun e => e.2 == v)).head?.map Prod.fst

/-- Whether an event relaxes node v (writes its record or pushes an entry for it). -/
def relaxesNode (v : Nat) : Ev → Bool
  | Ev.push _ w => w == v
  | Ev.record w _ _ _ => w == v
  | _ => false

/-- Whether an event settles node v. -/
def isSettleOf (v : Nat) : Ev → Bool
  | Ev.settle _ w => w == v
  | _ => false

/-- Claim C4 as a trace property: from the first settlement of v on, no event
relaxes v any more. -/
def settledNeverRelaxed (v : Nat) (tr : List Ev) : Bool :=
  (((tr.dropWhile (fun e => !isSettleOf v e)).drop 1).filter (relaxesNode v)).isEmpty

/-- Concrete scenario A of the spec: nodes S=0, A=1, B=2, G=3 with edges
S-A(1), S-B(4), A-B(1), A-G(5), B-G(1). All labels 0. -/
def gA : Graph := fun v =>
  if v = 0 then [(1, 1, 0), (2, 4, 0)]
  else if v = 1 then [(2, 1, 0), (3, 5, 0)]
  else if v = 2 then [(3, 1, 0)]
  else []

/-- Goal predicate for scenario A: true only for G = 3. -/
def goalA : Nat → Bool := fun v => v == 3

/-- A four-node graph exposing the relaxation-guard slip: S=0, P1=1, P2=2, N=3,
edges S-P1(9), S-P2(10), P1-N(2), P2-N(0); the goal is N. The cheapest path to N
is S-P2-N with cost 10, but the run keeps the record N via P1 (cost 11) because
the improvement test 10 < 2 compares the accumulated cost against P1's stored
edge cost. -/
def gBug : Graph := fun v =>
  if v = 0 then [(1, 9, 0), (2, 10, 0)]
  else if v = 1 then [(3, 2, 0)]
  else if v = 2 then [(3, 0, 0)]
  else []

/-- Goal predicate for the gBug scenario: true only for N = 3. -/
def goalBug : Nat → Bool := fun v => v == 3

/-- A two-node graph with an edge back into start: 0-1(1) and 1-0(1). -/
def gLoopBack : Graph := fun v =>
  if v = 0 then [(1, 1, 0)]
  else if v = 1 then [(0, 1, 0)]
  else []

/-- The loop invariant of the search, relative to a floor b (a lower bound on
every heap cost, which every popped cost has reached). Beyond bookkeeping facts
it states: every heap entry for a node other than start is backed by a
predecessor record whose stored edge cost is at most the entry cost; every
settled node other than start has a record with stored edge cost at most the
floor; records always point at settled nodes; settled nodes never satisfy the
goal predicate; every recorded unsettled node has a successful reconstruction
walk whose cost start_cost + sum of edges appears as one of its heap entries;
and every heap entry's cost is at least the walk cost of its node. -/
structure Inv (isGoal : Nat → Bool) (start c0 b : Nat) (s : DState) : Prop where
  floor : ∀ e ∈ s.queue, b ≤ e.1
  entryRec : ∀ e ∈ s.queue, e.2 ≠ start → ∃ p ec l, s.pred e.2 = some (p, ec, l) ∧ ec ≤ e.1
  settledRec : ∀ v ∈ s.settled, v ≠ start → ∃ p ec l, s.pred v = some (p, ec, l) ∧ ec ≤ b
  recSettled : ∀ u p ec l, s.pred u = some (p, ec, l) → p ∈ s.settled
  settledNotGoal : ∀ v ∈ s.settled, isGoal v = false
  startSettled : start ∈ s.settled
  walkEntry : ∀ v, v ∉ s.settled → ∀ p ec l, s.pred v = some (p, ec, l) →
    ∃ st, walk s.pred start (s.settled.length + 1) v = some st ∧ (stepsCost c0 st, v) ∈ s.queue
  entryWalk : ∀ e ∈ s.queue, e.2 ≠ start →
    ∃ st, walk s.pred start (s.settled.length + 1) e.2 = some st ∧ stepsCost c0 st ≤ e.1

/-- The invariant threaded through the relaxation of the popped node's edges:
node is the node being expanded, cost the cost it was popped with, S the settled
list with node already added. walkNode pins the walk cost of the expanded node
to its popped cost, which is what every push created here builds on. -/
structure RInv (start c0 node cost : Nat) (S : List Nat) (pred : PredMap)
    (q : List (Nat × Nat)) : Prop where
  floor : ∀ e ∈ q, cost ≤ e.1
  entryRec : ∀ e ∈ q, e.2 ≠ start → ∃ p ec l, pred e.2 = some (p, ec, l) ∧ ec ≤ e.1
  settledRec : ∀ v ∈ S, v ≠ start → ∃ p ec l, pred v = some (p, ec, l) ∧ ec ≤ cost
  recSettled : ∀ u p ec l, pred u = some (p, ec, l) → p ∈ S
  nodeMem : node ∈ S
  startMem : start ∈ S
  walkEntry : ∀ v, v ∉ S → ∀ p ec l, pred v = some (p, ec, l) →
    ∃ st, walk pred start (S.length + 1) v = some st ∧ (stepsCost c0 st, v) ∈ q
  entryWalk : ∀ e ∈ q, e.2 ≠ start →
    ∃ st, walk pred start (S.length + 1) e.2 = some st ∧ stepsCost c0 st ≤ e.1
  walkNode : ∃ st, walk pred start S.length node = some st ∧ stepsCost c0 st = cost

/-- Termination measure ingredient: for each node below the bound n that is not
yet settled, one pop plus one push per outgoing edge may still happen. -/
def degSum (g : Graph) (n : Nat) (settled : List Nat) : Nat :=
  ∑ v ∈ Finset.range n, if v ∈ settled then 0 else 1 + (g v).length

/-- A disconnected graph: node 0 leads to node 1, nothing else; any goal other
than 0 and 1 is unreachable. -/
def gDisc : Graph := fun v => if v = 0 then [(1, 1, 0)] else []

/-- The minimum cost of a direct edge from u to v, if one exists. -/
def minEdgeCost (g : Graph) (u v : Nat) : Option Nat :=
  ((g u).filterMap (fun e => if e.1 = v then some e.2.1 else none)).foldr
    (fun c acc => match acc with | none => some c | some d => some (min c d)) none

/-- The cost of a concrete node path, choosing the cheapest edge between each
consecutive pair; none if some consecutive pair has no edge. -/
def pathCost (g : Graph) : List Nat → Option Nat
  | [] => some 0
  | [_] => some 0
  | u :: v :: rest =>
    match minEdgeCost g u v, pathCost g (v :: rest) with
    | some c, some r => some (c + r)
    | _, _ => none

/-! Basic facts about the lexicographic heap order and heappop. -/

theorem lexLe_refl (a : Nat × Nat) : lexLe a a := by
  unfold lexLe; omega

theorem lexLe_trans {a b c : Nat × Nat} (h1 : lexLe a b) (h2 : lexLe b c) : lexLe a c := by
  unfold lexLe at h1 h2 ⊢; omega

theorem lexLe_of_not_lexLe {a b : Nat × Nat} (h : ¬ lexLe a b) : lexLe b a := by
  unfold lexLe at h ⊢; omega

theorem lexLe_fst {a b : Nat × Nat} (h : lexLe a b) : a.1 ≤ b.1 := by
  unfold lexLe at h; omega

theorem popMin_eq_none {q : List (Nat × Nat)} : popMin q = none ↔ q = [] := by
  cases q with
  | nil => simp [popMin]
  | cons x xs =>
    simp only [popMin]
    cases h : popMin xs with
    | none => simp
    | some mr =>
      obtain ⟨m, rest⟩ := mr
      by_cases hle : lexLe x m <;> simp [hle]

theorem popMin_perm {q : List (Nat × Nat)} {m : Nat × Nat} {rest : List (Nat × Nat)}
    (h : popMin q = some (m, rest)) : q.Perm (m :: rest) := by
  induction q generalizing m rest with
  | nil => simp [popMin] at h
  | cons x xs ih =>
    simp only [popMin] at h
    cases hxs : popMin xs with
    | none =>
      rw [hxs] at h
      simp at h
      obtain ⟨h1, h2⟩ := h
      subst h1; subst h2
      have : xs = [] := popMin_eq_none.mp hxs
      subst this
      exact List.Perm.refl _
    | some mr =>
      obtain ⟨m', rest'⟩ := mr
      rw [hxs] at h
      by_cases hle : lexLe x m'
      · simp [hle] at h
        obtain ⟨h1, h2⟩ := h
        subst h1; subst h2
        exact List.Perm.refl _
      · simp [hle] at h
        obtain ⟨h1, h2⟩ := h
        subst h1; subst h2
        have hperm := ih hxs
        exact (hperm.cons x).trans (List.Perm.swap m' x rest')

theorem popMin_mem {q : List (Nat × Nat)} {m : Nat × Nat} {rest : List (Nat × Nat)}
    (h : popMin q = some (m, rest)) : m ∈ q :=
  (popMin_perm h).mem_iff.mpr (List.mem_cons_self m rest)

theorem popMin_rest_subset {q : List (Nat × Nat)} {m e : Nat × Nat} {rest : List (Nat × Nat)}
    (h : popMin q = some (m, rest)) (he : e ∈ rest) : e ∈ q :=
  (popMin_perm h).mem_iff.mpr (List.mem_cons_of_mem m he)

theorem popMin_mem_rest {q : List (Nat × Nat)} {m e : Nat × Nat} {rest : List (Nat × Nat)}
    (h : popMin q = some (m, rest)) (he : e ∈ q) (hne : e ≠ m) : e ∈ rest := by
  have := (popMin_perm h).mem_iff.mp he
  simp at this
  tauto

theorem popMin_length {q : List (Nat × Nat)} {m : Nat × Nat} {rest : List (Nat × Nat)}
    (h : popMin q = some (m, rest)) : q.length = rest.length + 1 := by
  have := (popMin_perm h).length_eq
  simpa using this

theorem popMin_min {q : List (Nat × Nat)} {m : Nat × Nat} {rest : List (Nat × Nat)}
    (h : popMin q = some (m, rest)) : ∀ e ∈ q, lexLe m e := by
  induction q generalizing m rest with
  | nil => simp [popMin] at h
  | cons x xs ih =>
    simp only [popMin] at h
    cases hxs : popMin xs with
    | none =>
      rw [hxs] at h
      simp at h
      obtain ⟨h1, _⟩ := h
      subst h1
      have : xs = [] := popMin_eq_none.mp hxs
      subst this
      intro e he
      simp at he
      subst he
      exact lexLe_refl _
    | some mr =>
      obtain ⟨m', rest'⟩ := mr
      rw [hxs] at h
      by_cases hle : lexLe x m'
      · simp [hle] at h
        obtain ⟨h1, _⟩ := h
        subst h1
        intro e he
        rcases List.mem_cons.mp he with h | h
        · subst h; exact lexLe_refl _
        · exact lexLe_trans hle (ih hxs e h)
      · simp [hle] at h
        obtain ⟨h1, _⟩ := h
        subst h1
        intro e he
        rcases List.mem_cons.mp he with h | h
        · subst h; exact lexLe_of_not_lexLe hle
        · exact ih hxs e h

/-! Facts about the reconstruction walk. -/

theorem walk_start (pred : PredMap) (start f : Nat) : walk pred start f start = some [] := by
  cases f <;> simp [walk]

theorem walk_eq_nil {pred : PredMap} {start f v : Nat}
    (h : walk pred start f v = some []) : v = start := by
  cases f with
  | zero =>
    simp only [walk] at h
    by_cases hv : v = start
    · exact hv
    · simp [hv] at h
  | succ f =>
    simp only [walk] at h
    by_cases hv : v = start
    · exact hv
    · simp only [hv, if_false] at h
      cases hp : pred v with
      | none => rw [hp] at h; simp at h
      | some r =>
        obtain ⟨p, c, e⟩ := r
        rw [hp] at h
        simp at h

theorem walk_decomp {pred : PredMap} {start f v : Nat} {st : List (Nat × Nat × Nat × Nat)}
    (hv : v ≠ start) (h : walk pred start (f + 1) v = some st) :
    ∃ p c e st', pred v = some (p, c, e) ∧ walk pred start f p = some st' ∧
      st = st' ++ [(p, c, e, v)] := by
  simp only [walk, if_neg hv] at h
  cases hp : pred v with
  | none => rw [hp] at h; simp at h
  | some r =>
    obtain ⟨p, c, e⟩ := r
    rw [hp] at h
    simp only [Option.map_eq_some'] at h
    obtain ⟨st', hw, hst⟩ := h
    exact ⟨p, c, e, st', rfl, hw, hst.symm⟩

theorem walk_succ {pred : PredMap} {start f v p c e : Nat} (hv : v ≠ start)
    (hp : pred v = some (p, c, e)) :
    walk pred start (f + 1) v =
      (walk pred start f p).map (fun steps => steps ++ [(p, c, e, v)]) := by
  conv_lhs => rw [walk]
  rw [if_neg hv, hp]

theorem walk_mono {pred : PredMap} {start f v : Nat} {st : List (Nat × Nat × Nat × Nat)}
    (h : walk pred start f v = some st) : walk pred start (f + 1) v = some st := by
  induction f generalizing v st with
  | zero =>
    simp only [walk] at h
    by_cases hv : v = start
    · subst hv
      simp at h
      subst h
      exact walk_start ..
    · simp [hv] at h
  | succ f ih =>
    by_cases hv : v = start
    · subst hv
      rw [walk_start] at h
      simp at h
      subst h
      exact walk_start ..
    · obtain ⟨p, c, e, st', hp, hw, hst⟩ := walk_decomp hv h
      subst hst
      rw [walk_succ hv hp, ih hw, Option.map_some']

theorem walk_le {pred : PredMap} {start f f' v : Nat} {st : List (Nat × Nat × Nat × Nat)}
    (hf : f ≤ f') (h : walk pred start f v = some st) : walk pred start f' v = some st := by
  induction f' with
  | zero =>
    have : f = 0 := Nat.le_zero.mp hf
    subst this
    exact h
  | succ f' ih =>
    rcases Nat.lt_or_ge f (f' + 1) with hlt | hge
    · exact walk_mono (ih (Nat.lt_succ_iff.mp hlt))
    · have : f = f' + 1 := Nat.le_antisymm hf hge
      subst this
      exact h

theorem walk_reads {pred : PredMap} {start f v : Nat} {st : List (Nat × Nat × Nat × Nat)}
    (h : walk pred start f v = some st) :
    ∀ a ∈ st, pred a.2.2.2 = some (a.1, a.2.1, a.2.2.1) := by
  induction f generalizing v st with
  | zero =>
    simp only [walk] at h
    by_cases hv : v = start
    · simp [hv] at h; subst h; simp
    · simp [hv] at h
  | succ f ih =>
    by_cases hv : v = start
    · subst hv
      rw [walk_start] at h
      simp at h
      subst h
      simp
    · obtain ⟨p, c, e, st', hp, hw, hst⟩ := walk_decomp hv h
      subst hst
      intro a ha
      rcases List.mem_append.mp ha with h1 | h1
      · exact ih hw a h1
      · simp at h1
        subst h1
        simpa using hp

theorem walk_last {pred : PredMap} {start f v : Nat} {st : List (Nat × Nat × Nat × Nat)}
    (h : walk pred start f v = some st) : ∀ a ∈ st.getLast?, a.2.2.2 = v := by
  cases f with
  | zero =>
    simp only [walk] at h
    by_cases hv : v = start
    · simp [hv] at h; subst h; simp
    · simp [hv] at h
  | succ f =>
    by_cases hv : v = start
    · subst hv
      rw [walk_start] at h
      simp at h
      subst h
      simp
    · obtain ⟨p, c, e, st', hp, hw, hst⟩ := walk_decomp hv h
      subst hst
      intro a ha
      rw [List.getLast?_concat] at ha
      simp at ha
      subst ha
      rfl

theorem walk_first {pred : PredMap} {start f v : Nat} {st : List (Nat × Nat × Nat × Nat)}
    (h : walk pred start f v = some st) : ∀ a ∈ st.head?, a.1 = start := by
  induction f generalizing v st with
  | zero =>
    simp only [walk] at h
    by_cases hv : v = start
    · simp [hv] at h; subst h; simp
    · simp [hv] at h
  | succ f ih =>
    by_cases hv : v = start
    · subst hv
      rw [walk_start] at h
      simp at h
      subst h
      simp
    · obtain ⟨p, c, e, st', hp, hw, hst⟩ := walk_decomp hv h
      subst hst
      cases hst' : st' with
      | nil =>
        subst hst'
        have : p = start := walk_eq_nil hw
        subst this
        intro a ha
        simp at ha
        subst ha
        rfl
      | cons b tl =>
        subst hst'
        intro a ha
        have hhd : ((b :: tl) ++ [(p, c, e, v)]).head? = some b := rfl
        rw [hhd] at ha
        simp at ha
        subst ha
        exact ih hw b (by simp)

theorem walk_chain {pred : PredMap} {start f v : Nat} {st : List (Nat × Nat × Nat × Nat)}
    (h : walk pred start f v = some st) :
    List.Chain' (fun a b => a.2.2.2 = b.1) st := by
  induction f generalizing v st with
  | zero =>
    simp only [walk] at h
    by_cases hv : v = start
    · simp [hv] at h; subst h; simp
    · simp [hv] at h
  | succ f ih =>
    by_cases hv : v = start
    · subst hv
      rw [walk_start] at h
      simp at h
      subst h
      simp
    · obtain ⟨p, c, e, st', hp, hw, hst⟩ := walk_decomp hv h
      subst hst
      rw [List.chain'_append]
      refine ⟨ih hw, by simp, ?_⟩
      intro a ha b hb
      simp at hb
      subst hb
      exact walk_last hw a ha

theorem walk_congr {pred pred' : PredMap} {start f v : Nat} {st : List (Nat × Nat × Nat × Nat)}
    (h : walk pred start f v = some st) (hv : pred' v = pred v)
    (hsteps : ∀ a ∈ st, a.1 ≠ start → pred' a.1 = pred a.1) :
    walk pred' start f v = some st := by
  induction f generalizing v st with
  | zero =>
    simp only [walk] at h ⊢
    by_cases hvs : v = start
    · simpa [hvs] using h
    · simp [hvs] at h
  | succ f ih =>
    by_cases hvs : v = start
    · subst hvs
      rw [walk_start] at h ⊢
      exact h
    · obtain ⟨p, c, e, st', hp, hw, hst⟩ := walk_decomp hvs h
      subst hst
      have hp' : pred' v = some (p, c, e) := by rw [hv, hp]
      by_cases hps : p = start
      · have hnil : st' = [] := by
          rw [hps, walk_start] at hw
          exact (Option.some.inj hw).symm
        subst hnil
        rw [walk_succ hvs hp', hps, walk_start, Option.map_some']
      · have hpp : pred' p = pred p := by
          apply hsteps (p, c, e, v)
          · simp
          · exact hps
        have hw' : walk pred' start f p = some st' := by
          apply ih hw hpp
          intro a ha ha'
          exact hsteps a (List.mem_append_left _ ha) ha'
        rw [walk_succ hvs hp', hw', Option.map_some']

/-- The reconstruction walk never consults the record of start: it is
insensitive to the predecessor map's value there. -/
theorem walk_indep_start {pred pred' : PredMap} {start : Nat}
    (hagree : ∀ u, u ≠ start → pred u = pred' u) (f v : Nat) :
    walk pred start f v = walk pred' start f v := by
  induction f generalizing v with
  | zero =>
    by_cases hv : v = start <;> simp [walk, hv]
  | succ f ih =>
    by_cases hv : v = start
    · simp [walk, hv]
    · simp only [walk, hv, if_false, hagree v hv, ih]

/-! Facts about trace projections. -/

theorem popsOf_append (t1 t2 : List Ev) : popsOf (t1 ++ t2) = popsOf t1 ++ popsOf t2 := by
  induction t1 with
  | nil => simp [popsOf]
  | cons e tl ih => cases e <;> simp [popsOf, ih]

theorem pushesOf_append (t1 t2 : List Ev) :
    pushesOf (t1 ++ t2) = pushesOf t1 ++ pushesOf t2 := by
  induction t1 with
  | nil => simp [pushesOf]
  | cons e tl ih => cases e <;> simp [pushesOf, ih]

theorem stepsCost_append (c0 : Nat) (st : List (Nat × Nat × Nat × Nat)) (a : Nat × Nat × Nat × Nat) :
    stepsCost c0 (st ++ [a]) = stepsCost c0 st + a.2.1 := by
  simp [stepsCost]
  omega

/-! Facts about the relaxation of one node's edge list. -/

theorem improves_some {nc : Nat} {r : Nat × Nat × Nat} :
    improves nc (some r) = true ↔ nc < r.2.1 := by
  simp [improves]

/-- Every event emitted by the inner for-loop is a push or a record. -/
theorem relaxAll_ev_shape {node cost : Nat} :
    ∀ (edges : List Edge) (pred : PredMap) (q : List (Nat × Nat)),
    ∀ e ∈ (relaxAll node cost edges pred q).2.2,
      (∃ c w, e = Ev.push c w) ∨ ∃ w p c l, e = Ev.record w p c l := by
  intro edges
  induction edges with
  | nil => intro pred q e he; simp [relaxAll] at he
  | cons ed es ih =>
    intro pred q e he
    obtain ⟨neighbor, edgeCost, label⟩ := ed
    simp only [relaxAll] at he
    by_cases hg : improves (cost + edgeCost) (pred neighbor) = true
    · rw [if_pos hg] at he
      simp only [List.mem_cons] at he
      rcases he with h | h | h
      · right; exact ⟨_, _, _, _, h⟩
      · left; exact ⟨_, _, h⟩
      · exact ih _ _ e h
    · rw [if_neg hg] at he
      exact ih _ _ e he

theorem relaxAll_no_pops {node cost : Nat} :
    ∀ (edges : List Edge) (pred : PredMap) (q : List (Nat × Nat)),
    popsOf (relaxAll node cost edges pred q).2.2 = [] := by
  intro edges
  induction edges with
  | nil => intro pred q; simp [relaxAll, popsOf]
  | cons ed es ih =>
    intro pred q
    obtain ⟨neighbor, edgeCost, label⟩ := ed
    simp only [relaxAll]
    by_cases hg : improves (cost + edgeCost) (pred neighbor) = true
    · rw [if_pos hg]
      simp only [popsOf]
      exact ih _ _
    · rw [if_neg hg]
      exact ih _ _

/-- A settled node other than start, whose record's stored edge cost is at most
the popped cost, is never touched by the relaxation: its record survives and no
emitted event relaxes it. This is where the non-negativity of costs enters:
new_cost = cost + edge_cost is at least cost, hence at least the stored edge
cost, so the improvement test fails. -/
theorem relaxAll_frozen {node cost v : Nat} :
    ∀ (edges : List Edge) (pred : PredMap) (q : List (Nat × Nat)),
    (∃ p ec l, pred v = some (p, ec, l) ∧ ec ≤ cost) →
    (relaxAll node cost edges pred q).1 v = pred v ∧
    ∀ e ∈ (relaxAll node cost edges pred q).2.2, relaxesNode v e = false := by
  intro edges
  induction edges with
  | nil => intro pred q _; exact ⟨rfl, by simp [relaxAll]⟩
  | cons ed es ih =>
    intro pred q hv
    obtain ⟨neighbor, edgeCost, label⟩ := ed
    obtain ⟨p, ec, l, hrec, hle⟩ := hv
    simp only [relaxAll]
    by_cases hg : improves (cost + edgeCost) (pred neighbor) = true
    · have hnv : neighbor ≠ v := by
        intro hcontra
        subst hcontra
        rw [hrec, improves_some] at hg
        simp at hg
        omega
      have hvne : v ≠ neighbor := fun h => hnv h.symm
      rw [if_pos hg]
      have hpred' : (fun u => if u = neighbor then some (node, edgeCost, label) else pred u) v
          = pred v := by simp [hvne]
      have := ih (fun u => if u = neighbor then some (node, edgeCost, label) else pred u)
        ((cost + edgeCost, neighbor) :: q) ⟨p, ec, l, by rw [hpred', hrec], hle⟩
      refine ⟨by rw [this.1, hpred'], ?_⟩
      intro e he
      simp only [List.mem_cons] at he
      rcases he with h | h | h
      · subst h; simp [relaxesNode, hnv]
      · subst h; simp [relaxesNode, hnv]
      · exact this.2 e h
    · rw [if_neg hg]
      exact ih _ _ ⟨p, ec, l, hrec, hle⟩

/-- The relaxation prepends some list of new entries to the heap; the push
events are exactly those entries, there are at most as many as edges, and each
arises from an edge of the expanded node with cost new_cost = cost + edge_cost. -/
theorem relaxAll_adds {node cost : Nat} :
    ∀ (edges : List Edge) (pred : PredMap) (q : List (Nat × Nat)),
    ∃ adds,
      (relaxAll node cost edges pred q).2.1 = adds ++ q ∧
      (∀ a, a ∈ pushesOf (relaxAll node cost edges pred q).2.2 ↔ a ∈ adds) ∧
      adds.length ≤ edges.length ∧
      ∀ a ∈ adds, ∃ c l, (a.2, c, l) ∈ edges ∧ a.1 = cost + c := by
  intro edges
  induction edges with
  | nil =>
    intro pred q
    exact ⟨[], by simp [relaxAll], by simp [relaxAll, pushesOf], by simp, by simp⟩
  | cons ed es ih =>
    intro pred q
    obtain ⟨neighbor, edgeCost, label⟩ := ed
    simp only [relaxAll]
    by_cases hg : improves (cost + edgeCost) (pred neighbor) = true
    · rw [if_pos hg]
      obtain ⟨adds, hq, hpush, hlen, hprop⟩ :=
        ih (fun u => if u = neighbor then some (node, edgeCost, label) else pred u)
           ((cost + edgeCost, neighbor) :: q)
      refine ⟨adds ++ [(cost + edgeCost, neighbor)], ?_, ?_, ?_, ?_⟩
      · rw [hq]; simp
      · intro a
        simp only [pushesOf, List.mem_cons, List.mem_append, List.mem_singleton]
        rw [hpush a]
        tauto
      · simp
        omega
      · intro a ha
        rcases List.mem_append.mp ha with h | h
        · obtain ⟨c, l, hmem, hc⟩ := hprop a h
          exact ⟨c, l, List.mem_cons_of_mem _ hmem, hc⟩
        · simp at h
          subst h
          exact ⟨edgeCost, label, by simp, rfl⟩
    · rw [if_neg hg]
      obtain ⟨adds, hq, hpush, hlen, hprop⟩ := ih pred q
      refine ⟨adds, hq, hpush, by simp only [List.length_cons]; omega, ?_⟩
      intro a ha
      obtain ⟨c, l, hmem, hc⟩ := hprop a ha
      exact ⟨c, l, List.mem_cons_of_mem _ hmem, hc⟩

/-- Stability of successful walks under one accepted relaxation: the updated
node is unsettled or start, while a walk of u only reads records at u itself
and at settled nodes it encounters, so the walk of any u other than the updated
node is unchanged. -/
theorem walk_stable_update {start node edgeCost label neighbor : Nat} {S : List Nat}
    {pred : PredMap}
    (hrecS : ∀ u p ec l, pred u = some (p, ec, l) → p ∈ S)
    (hcase : neighbor ∉ S ∨ neighbor = start)
    {f u : Nat} {st : List (Nat × Nat × Nat × Nat)}
    (hu : u ≠ neighbor) (hw : walk pred start f u = some st) :
    walk (fun x => if x = neighbor then some (node, edgeCost, label) else pred x) start f u
      = some st := by
  by_cases hus : u = start
  · subst hus
    rw [walk_start] at hw
    rw [walk_start]
    exact hw
  · apply walk_congr hw
    · simp [hu]
    · intro a ha hastart
      have hreads := walk_reads hw a ha
      have haS : a.1 ∈ S := hrecS _ _ _ _ hreads
      have hane : a.1 ≠ neighbor := by
        rcases hcase with h | h
        · intro hc; exact h (hc ▸ haS)
        · intro hc; exact hastart (hc.trans h)
      simp [hane]

/-- One accepted relaxation preserves the relaxation invariant. -/
theorem rinv_step {start c0 node cost neighbor edgeCost label : Nat} {S : List Nat}
    {pred : PredMap} {q : List (Nat × Nat)}
    (hR : RInv start c0 node cost S pred q)
    (hg : improves (cost + edgeCost) (pred neighbor) = true) :
    RInv start c0 node cost S
      (fun u => if u = neighbor then some (node, edgeCost, label) else pred u)
      ((cost + edgeCost, neighbor) :: q) := by
  obtain ⟨hfloor, hentryRec, hsettledRec, hrecSettled, hnodeMem, hstartMem,
    hwalkEntry, hentryWalk, hwalkNode⟩ := hR
  have hcase : neighbor ∉ S ∨ neighbor = start := by
    by_cases hns : neighbor ∈ S
    · by_cases hstart : neighbor = start
      · right; exact hstart
      · obtain ⟨p, ec, l, hrec, hle⟩ := hsettledRec neighbor hns hstart
        rw [hrec, improves_some] at hg
        simp at hg
        omega
    · left; exact hns
  have hwalkNodeStable : ∃ stN,
      walk (fun u => if u = neighbor then some (node, edgeCost, label) else pred u)
        start S.length node = some stN ∧ stepsCost c0 stN = cost := by
    obtain ⟨stN, hwn, hcn⟩ := hwalkNode
    by_cases hns : node = start
    · subst hns
      rw [walk_start] at hwn
      have hnil : stN = [] := (Option.some.inj hwn).symm
      subst hnil
      exact ⟨[], walk_start .., hcn⟩
    · have hnn : node ≠ neighbor := by
        rcases hcase with h | h
        · intro hc; exact h (hc ▸ hnodeMem)
        · intro hc; exact hns (hc.trans h)
      exact ⟨stN, walk_stable_update hrecSettled hcase hnn hwn, hcn⟩
  have hwalkNew : neighbor ≠ start → ∃ stN,
      walk (fun u => if u = neighbor then some (node, edgeCost, label) else pred u)
        start (S.length + 1) neighbor = some (stN ++ [(node, edgeCost, label, neighbor)]) ∧
      stepsCost c0 stN = cost := by
    intro hnstart
    obtain ⟨stN, hwn, hcn⟩ := hwalkNodeStable
    have hpn : (fun u => if u = neighbor then some (node, edgeCost, label) else pred u) neighbor
        = some (node, edgeCost, label) := by simp
    refine ⟨stN, ?_, hcn⟩
    rw [walk_succ hnstart hpn, hwn, Option.map_some']
  refine ⟨?_, ?_, ?_, ?_, hnodeMem, hstartMem, ?_, ?_, hwalkNodeStable⟩
  · intro e he
    rcases List.mem_cons.mp he with h | h
    · subst h; simp
    · exact hfloor e h
  · intro e he hne
    rcases List.mem_cons.mp he with h | h
    · subst h
      exact ⟨node, edgeCost, label, by simp, by simp⟩
    · by_cases heq : e.2 = neighbor
      · obtain ⟨p, ec, l, hrec, hle⟩ := hentryRec e h hne
        rw [heq] at hrec
        rw [hrec, improves_some] at hg
        simp at hg
        refine ⟨node, edgeCost, label, by simp [heq], ?_⟩
        omega
      · obtain ⟨p, ec, l, hrec, hle⟩ := hentryRec e h hne
        refine ⟨p, ec, l, ?_, hle⟩
        simp only [heq, if_false]
        exact hrec
  · intro v hv hvs
    obtain ⟨p, ec, l, hrec, hle⟩ := hsettledRec v hv hvs
    have hvnb : v ≠ neighbor := by
      rcases hcase with h | h
      · intro hc; exact h (hc ▸ hv)
      · intro hc; exact hvs (hc.trans h)
    refine ⟨p, ec, l, ?_, hle⟩
    simp only [hvnb, if_false]
    exact hrec
  · intro u p ec l hrec
    by_cases hu : u = neighbor
    · simp only [hu, if_pos rfl] at hrec
      have : node = p := congrArg (fun r => (r.getD (0, 0, 0)).1) hrec
      rw [← this]
      exact hnodeMem
    · simp only [hu, if_false] at hrec
      exact hrecSettled u p ec l hrec
  · intro v hvS p ec l hrec
    by_cases hv : v = neighbor
    · subst hv
      have hnstart : v ≠ start := fun hc => hvS (hc ▸ hstartMem)
      obtain ⟨stN, hwn, hcn⟩ := hwalkNew hnstart
      refine ⟨stN ++ [(node, edgeCost, label, v)], hwn, ?_⟩
      rw [stepsCost_append, hcn]
      exact List.mem_cons_self _ _
    · have hrecOld : pred v = some (p, ec, l) := by
        simp only [hv, if_false] at hrec
        exact hrec
      obtain ⟨st, hwv, hmem⟩ := hwalkEntry v hvS p ec l hrecOld
      exact ⟨st, walk_stable_update hrecSettled hcase hv hwv,
        List.mem_cons_of_mem _ hmem⟩
  · intro e he hne
    rcases List.mem_cons.mp he with h | h
    · subst h
      obtain ⟨stN, hwn, hcn⟩ := hwalkNew hne
      refine ⟨stN ++ [(node, edgeCost, label, neighbor)], hwn, ?_⟩
      rw [stepsCost_append, hcn]
    · by_cases heq : e.2 = neighbor
      · obtain ⟨p, ec, l, hrec, hle⟩ := hentryRec e h hne
        rw [heq] at hrec
        rw [hrec, improves_some] at hg
        simp at hg
        have hnstart : neighbor ≠ start := fun hc => hne (heq.trans hc)
        obtain ⟨stN, hwn, hcn⟩ := hwalkNew hnstart
        refine ⟨stN ++ [(node, edgeCost, label, neighbor)], ?_, ?_⟩
        · rw [heq]
          exact hwn
        · rw [stepsCost_append, hcn]
          simp
          omega
      · obtain ⟨st, hwv, hbound⟩ := hentryWalk e h hne
        exact ⟨st, walk_stable_update hrecSettled hcase heq hwv, hbound⟩

/-- The whole inner for-loop preserves the relaxation invariant. -/
theorem relaxAll_rinv {start c0 node cost : Nat} {S : List Nat} :
    ∀ (edges : List Edge) (pred : PredMap) (q : List (Nat × Nat)),
    RInv start c0 node cost S pred q →
    RInv start c0 node cost S (relaxAll node cost edges pred q).1
      (relaxAll node cost edges pred q).2.1 := by
  intro edges
  induction edges with
  | nil => intro pred q hR; simpa [relaxAll] using hR
  | cons ed es ih =>
    intro pred q hR
    obtain ⟨neighbor, edgeCost, label⟩ := ed
    simp only [relaxAll]
    by_cases hg : improves (cost + edgeCost) (pred neighbor) = true
    · rw [if_pos hg]
      exact ih _ _ (rinv_step hR hg)
    · rw [if_neg hg]
      exact ih _ _ hR

/-! Per-iteration preservation of the loop invariant. -/

/-- A node popped for the first time (not settled, not start) is popped exactly
at the cost of its current reconstruction walk: the walk cost appears as some
entry of the heap and bounds every entry of the node from below, and the popped
entry is minimal. -/
theorem inv_pop_walk {isGoal : Nat → Bool} {start c0 b cost v : Nat} {s : DState}
    {rest : List (Nat × Nat)}
    (hInv : Inv isGoal start c0 b s)
    (hpop : popMin s.queue = some ((cost, v), rest))
    (hmem : v ∉ s.settled) (hvs : v ≠ start) :
    ∃ st, walk s.pred start (s.settled.length + 1) v = some st ∧ stepsCost c0 st = cost := by
  have hpopped : (cost, v) ∈ s.queue := popMin_mem hpop
  obtain ⟨p, ec, l, hrec, _⟩ := hInv.entryRec (cost, v) hpopped hvs
  obtain ⟨st, hw, hqmem⟩ := hInv.walkEntry v hmem p ec l hrec
  obtain ⟨st', hw', hble⟩ := hInv.entryWalk (cost, v) hpopped hvs
  rw [hw] at hw'
  have hst : st' = st := (Option.some.inj hw').symm
  rw [hst] at hble
  have hmin := popMin_min hpop (stepsCost c0 st, v) hqmem
  have hge : cost ≤ stepsCost c0 st := lexLe_fst hmin
  exact ⟨st, hw, Nat.le_antisymm hble hge⟩

/-- Popping a stale entry (an already settled node) preserves the invariant,
with the floor raised to the popped cost. -/
theorem inv_stale {isGoal : Nat → Bool} {start c0 b cost v : Nat} {s : DState}
    {rest : List (Nat × Nat)}
    (hInv : Inv isGoal start c0 b s)
    (hpop : popMin s.queue = some ((cost, v), rest))
    (hmem : v ∈ s.settled) :
    Inv isGoal start c0 cost { s with queue := rest } := by
  have hbc : b ≤ cost := hInv.floor (cost, v) (popMin_mem hpop)
  refine ⟨?_, ?_, ?_, hInv.recSettled, hInv.settledNotGoal, hInv.startSettled, ?_, ?_⟩
  · intro e he
    exact lexLe_fst (popMin_min hpop e (popMin_rest_subset hpop he))
  · intro e he hne
    exact hInv.entryRec e (popMin_rest_subset hpop he) hne
  · intro u hu hus
    obtain ⟨p, ec, l, hrec, hle⟩ := hInv.settledRec u hu hus
    exact ⟨p, ec, l, hrec, hle.trans hbc⟩
  · intro u huS p ec l hrec
    obtain ⟨st, hw, hqmem⟩ := hInv.walkEntry u huS p ec l hrec
    refine ⟨st, hw, ?_⟩
    apply popMin_mem_rest hpop hqmem
    intro hcontra
    have : u = v := congrArg Prod.snd hcontra
    exact huS (this ▸ hmem)
  · intro e he hne
    exact hInv.entryWalk e (popMin_rest_subset hpop he) hne

/-- Settling and expanding a freshly popped node preserves the invariant, with
the floor raised to the popped cost. -/
theorem inv_settle {g : Graph} {isGoal : Nat → Bool} {start c0 b cost v : Nat} {s : DState}
    {rest : List (Nat × Nat)}
    (hInv : Inv isGoal start c0 b s)
    (hpop : popMin s.queue = some ((cost, v), rest))
    (hmem : v ∉ s.settled) (hgoal : isGoal v = false) :
    Inv isGoal start c0 cost
      ⟨(relaxAll v cost (g v) s.pred rest).2.1, (relaxAll v cost (g v) s.pred rest).1,
        s.settled ++ [v]⟩ := by
  have hvs : v ≠ start := fun hc => hmem (hc ▸ hInv.startSettled)
  have hbc : b ≤ cost := hInv.floor (cost, v) (popMin_mem hpop)
  have hpopped : (cost, v) ∈ s.queue := popMin_mem hpop
  have hlen : (s.settled ++ [v]).length = s.settled.length + 1 := by simp
  have hRInv : RInv start c0 v cost (s.settled ++ [v]) s.pred rest := by
    refine ⟨?_, ?_, ?_, ?_, ?_, ?_, ?_, ?_, ?_⟩
    · intro e he
      exact lexLe_fst (popMin_min hpop e (popMin_rest_subset hpop he))
    · intro e he hne
      exact hInv.entryRec e (popMin_rest_subset hpop he) hne
    · intro u hu hus
      rcases List.mem_append.mp hu with h | h
      · obtain ⟨p, ec, l, hrec, hle⟩ := hInv.settledRec u h hus
        exact ⟨p, ec, l, hrec, hle.trans hbc⟩
      · simp at h
        subst h
        obtain ⟨p, ec, l, hrec, hle⟩ := hInv.entryRec (cost, u) hpopped hus
        exact ⟨p, ec, l, hrec, hle⟩
    · intro u p ec l hrec
      exact List.mem_append_left _ (hInv.recSettled u p ec l hrec)
    · exact List.mem_append_right _ (by simp)
    · exact List.mem_append_left _ hInv.startSettled
    · intro u huS p ec l hrec
      have huOld : u ∉ s.settled := fun hc => huS (List.mem_append_left _ hc)
      have huv : u ≠ v := fun hc => huS (hc ▸ List.mem_append_right _ (by simp))
      obtain ⟨st, hw, hqmem⟩ := hInv.walkEntry u huOld p ec l hrec
      refine ⟨st, ?_, ?_⟩
      · rw [hlen]
        exact walk_mono hw
      · apply popMin_mem_rest hpop hqmem
        intro hcontra
        exact huv (congrArg Prod.snd hcontra)
    · intro e he hne
      obtain ⟨st, hw, hble⟩ := hInv.entryWalk e (popMin_rest_subset hpop he) hne
      refine ⟨st, ?_, hble⟩
      rw [hlen]
      exact walk_mono hw
    · obtain ⟨st, hw, hsc⟩ := inv_pop_walk hInv hpop hmem hvs
      refine ⟨st, ?_, hsc⟩
      rw [hlen]
      exact hw
  have hOut := relaxAll_rinv (g v) s.pred rest hRInv
  refine ⟨hOut.floor, hOut.entryRec, hOut.settledRec, hOut.recSettled, ?_, ?_, ?_, ?_⟩
  · intro u hu
    rcases List.mem_append.mp hu with h | h
    · exact hInv.settledNotGoal u h
    · simp at h
      subst h
      exact hgoal
  · exact List.mem_append_left _ hInv.startSettled
  · exact hOut.walkEntry
  · exact hOut.entryWalk

/-- The invariant holds after the very first iteration, which always pops
(start_cost, start) and, when start is not a goal, settles start and relaxes
its edges. -/
theorem inv_first {g : Graph} {isGoal : Nat → Bool} {start c0 : Nat}
    (hgs : isGoal start = false) :
    Inv isGoal start c0 c0
      ⟨(relaxAll start c0 (g start) (fun _ => none) []).2.1,
       (relaxAll start c0 (g start) (fun _ => none) []).1, [start]⟩ := by
  have hRInv : RInv start c0 start c0 [start] (fun _ => none) [] := by
    refine ⟨?_, ?_, ?_, ?_, by simp, by simp, ?_, ?_, ?_⟩
    · intro e he; simp at he
    · intro e he; simp at he
    · intro u hu hus
      simp at hu
      exact absurd hu hus
    · intro u p ec l hrec; simp at hrec
    · intro u huS p ec l hrec; simp at hrec
    · intro e he; simp at he
    · exact ⟨[], walk_start .., by simp [stepsCost]⟩
  have hOut := relaxAll_rinv (g start) (fun _ => none) [] hRInv
  refine ⟨hOut.floor, hOut.entryRec, hOut.settledRec, hOut.recSettled, ?_, by simp, ?_, ?_⟩
  · intro u hu
    simp at hu
    subst hu
    exact hgs
  · exact hOut.walkEntry
  · exact hOut.entryWalk

/-- Master lemma for a successful loop run from an invariant state: the node
returned as the goal satisfies the goal predicate, is not start (whenever start
itself is no goal), and its reconstruction walk in the final state succeeds at
the exact fuel used by dijkstra, with total cost equal to the popped cost. -/
theorem loop_goal_spec {g : Graph} {isGoal : Nat → Bool} {start c0 : Nat}
    (hgs : isGoal start = false) :
    ∀ (fuel : Nat) (s : DState) (b : Nat), Inv isGoal start c0 b s →
    ∀ (cost v : Nat) (s' : DState),
    (loop g isGoal fuel s).1 = LoopOut.goalFound cost v s' →
    isGoal v = true ∧ v ≠ start ∧
    ∃ st, walk s'.pred start (s'.settled.length + 1) v = some st ∧
      stepsCost c0 st = cost := by
  intro fuel
  induction fuel with
  | zero =>
    intro s b hInv cost v s' h
    simp [loop] at h
  | succ fuel ih =>
    intro s b hInv cost v s' h
    simp only [loop] at h
    split at h
    · simp at h
    · rename_i mr cost₀ node rest hpop
      by_cases hgoal : isGoal node = true
      · rw [if_pos hgoal] at h
        simp only [LoopOut.goalFound.injEq] at h
        obtain ⟨h1, h2, h3⟩ := h
        subst h1
        subst h2
        subst h3
        have hvs : node ≠ start := fun hc => by
          rw [hc, hgs] at hgoal; exact Bool.noConfusion hgoal
        have hmem : node ∉ s.settled := fun hc => by
          rw [hInv.settledNotGoal node hc] at hgoal; exact Bool.noConfusion hgoal
        obtain ⟨st, hw, hsc⟩ := inv_pop_walk hInv hpop hmem hvs
        exact ⟨hgoal, hvs, st, hw, hsc⟩
      · rw [if_neg hgoal] at h
        by_cases hmem : node ∈ s.settled
        · rw [if_pos hmem] at h
          exact ih _ cost₀ (inv_stale hInv hpop hmem) cost v s' h
        · rw [if_neg hmem] at h
          exact ih _ cost₀
            (inv_settle hInv hpop hmem (Bool.eq_false_iff.mpr hgoal)) cost v s' h

/-- The first iteration from the initial state, when start is not a goal: pop
(start_cost, start), settle start and relax its edges. -/
theorem loop_init (g : Graph) (isGoal : Nat → Bool) (start c0 fuel : Nat)
    (hgs : isGoal start = false) :
    loop g isGoal (fuel + 1) (initState start c0) =
      ((loop g isGoal fuel ⟨(relaxAll start c0 (g start) (fun _ => none) []).2.1,
          (relaxAll start c0 (g start) (fun _ => none) []).1, [start]⟩).1,
        Ev.pop c0 start :: Ev.settle c0 start ::
          ((relaxAll start c0 (g start) (fun _ => none) []).2.2 ++
            (loop g isGoal fuel ⟨(relaxAll start c0 (g start) (fun _ => none) []).2.1,
              (relaxAll start c0 (g start) (fun _ => none) []).1, [start]⟩).2)) := by
  simp [loop, initState, popMin, hgs]

/-- The first iteration from the initial state, when start is a goal: the run
stops immediately with the popped (start_cost, start). -/
theorem loop_init_goal (g : Graph) (isGoal : Nat → Bool) (start c0 fuel : Nat)
    (hgs : isGoal start = true) :
    loop g isGoal (fuel + 1) (initState start c0) =
      (LoopOut.goalFound c0 start ⟨[], fun _ => none, []⟩, [Ev.pop c0 start]) := by
  simp [loop, initState, popMin, hgs]

/-- Claim C6: on scenario A (S=0, A=1, B=2, G=3 with edges S-A(1), S-B(4),
A-B(1), A-G(5), B-G(1), goal G, start cost 0) the search returns the path
S, A, B, G with total cost 3. -/
theorem C6_scenarioA :
    (dijkstra 0 gA goalA 0 20).1 =
      DResult.found [0, 1, 2, 3] 3 [(0, 1, 0, 1), (1, 1, 0, 2), (2, 1, 0, 3)] := by
  decide

/-- Claim C7: when the goal predicate holds at start, the search returns the
trivial path [start] with cost start_cost and no steps, and get_edges is never
consulted (the result is identical for any two edge functions). -/
theorem C7_goal_at_start (start : Nat) (g g' : Graph) (isGoal : Nat → Bool) (c0 fuel : Nat)
    (hgs : isGoal start = true) (hfuel : 1 ≤ fuel) :
    (dijkstra start g isGoal c0 fuel).1 = DResult.found [start] c0 [] ∧
    dijkstra start g isGoal c0 fuel = dijkstra start g' isGoal c0 fuel := by
  obtain ⟨fuel, rfl⟩ : ∃ f, fuel = f + 1 := ⟨fuel - 1, by omega⟩
  have h1 := loop_init_goal g isGoal start c0 fuel hgs
  have h2 := loop_init_goal g' isGoal start c0 fuel hgs
  constructor
  · simp [dijkstra, h1, walk_start]
  · simp [dijkstra, h1, h2]

/-- Witness for C7 at a concrete input: start 5 with an always-true goal
predicate and two different edge functions. -/
theorem C7_goal_at_start_witness :
    (dijkstra 5 gA (fun _ => true) 7 3).1 = DResult.found [5] 7 [] ∧
    dijkstra 5 gA (fun _ => true) 7 3 = dijkstra 5 gBug (fun _ => true) 7 3 :=
  C7_goal_at_start 5 gA gBug (fun _ => true) 7 3 rfl (by omega)

/-- Claim C1 is refuted by the code on gBug: the run returns the path
S, P1, N with total cost 11, although S, P2, N is a path to the goal of cost
10. The returned cost is therefore not minimal among goal paths, because the
relaxation guard compares new_cost with the stored edge cost of N's record
(2) instead of the accumulated cost it implies (11). -/
theorem C1_minimality_fails_concretely :
    (dijkstra 0 gBug goalBug 0 20).1 =
      DResult.found [0, 1, 3] 11 [(0, 9, 0, 1), (1, 2, 0, 3)] ∧
    pathCost gBug [0, 2, 3] = some 10 ∧ goalBug 3 = true ∧ ¬ (11 ≤ 10) := by
  refine ⟨by decide, by decide, rfl, by omega⟩

/-- Claim C2 is refuted by the code on the same run: node 2 is settled with
accumulated cost 10 and has a 0-cost edge to node 3, so new_cost 10 is
strictly below the accumulated cost 11 implied by node 3's record via node 1
(settled at 9, edge 2); the claim demands a replacement and a push, but the
only relaxations of node 3 in the whole trace are the record via node 1 and
the push at 11. -/
theorem C2_guard_compares_edge_cost :
    Ev.settle 10 2 ∈ (dijkstra 0 gBug goalBug 0 20).2 ∧
    Ev.settle 9 1 ∈ (dijkstra 0 gBug goalBug 0 20).2 ∧
    (3, 0, 0) ∈ gBug 2 ∧
    ((dijkstra 0 gBug goalBug 0 20).2.filter (relaxesNode 3)) =
      [Ev.record 3 1 2 0, Ev.push 11 3] := by
  refine ⟨by decide, by decide, by decide, by decide⟩

/-- Claim C5 is refuted as stated: on the graph with an edge back into start,
start (node 0) is given the predecessor record (1, 1, 0) during the run. -/
theorem C5_start_gets_record :
    Ev.record 0 1 1 0 ∈ (dijkstra 0 gLoopBack (fun _ => false) 0 20).2 := by
  decide

/-- Claim C4 is refuted as stated: on the same graph, start (node 0) is
settled first and later relaxed again (its record is written and a new entry
is pushed for it). -/
theorem C4_settled_relaxed_again :
    settledNeverRelaxed 0 (dijkstra 0 gLoopBack (fun _ => false) 0 20).2 = false := by
  decide

/-- Claim C3: whenever the search returns a found result whose path has more
than one node, the steps are a consistent chain: the first step leaves start,
the last step arrives at the returned goal node (the last node of the path),
each step starts where the previous one ended, and start_cost plus the sum of
the step edge costs equals the returned total cost. -/
theorem C3_steps_consistency (start : Nat) (g : Graph) (isGoal : Nat → Bool) (c0 fuel : Nat)
    (path : List Nat) (cost : Nat) (steps : List (Nat × Nat × Nat × Nat))
    (hres : (dijkstra start g isGoal c0 fuel).1 = DResult.found path cost steps)
    (hlen : 1 < path.length) :
    steps ≠ [] ∧
    (∀ a ∈ steps.head?, a.1 = start) ∧
    (∀ a ∈ steps.getLast?, ∀ gl ∈ path.getLast?, a.2.2.2 = gl) ∧
    List.Chain' (fun a b => a.2.2.2 = b.1) steps ∧
    c0 + (steps.map (fun a => a.2.1)).sum = cost := by
  rcases hloop : loop g isGoal fuel (initState start c0) with ⟨o, tr⟩
  cases o with
  | exhausted s' => simp [dijkstra, hloop] at hres
  | fuelOut s' => simp [dijkstra, hloop] at hres
  | goalFound cost' v s' =>
    simp only [dijkstra, hloop] at hres
    cases hwalk : walk s'.pred start (s'.settled.length + 1) v with
    | none => rw [hwalk] at hres; simp at hres
    | some steps' =>
      rw [hwalk] at hres
      simp only [DResult.found.injEq] at hres
      obtain ⟨hpath, hcost, hsteps⟩ := hres
      subst hsteps
      subst hcost
      cases fuel with
      | zero => simp [loop] at hloop
      | succ fuel =>
        by_cases hgs : isGoal start = true
        · rw [loop_init_goal g isGoal start c0 fuel hgs] at hloop
          simp only [Prod.mk.injEq, LoopOut.goalFound.injEq] at hloop
          obtain ⟨⟨hc, hv, hs⟩, htr⟩ := hloop
          subst hv
          subst hs
          rw [walk_start] at hwalk
          have hnil : steps' = [] := (Option.some.inj hwalk).symm
          subst hnil
          rw [← hpath] at hlen
          simp at hlen
        · have hgs' : isGoal start = false := Bool.eq_false_iff.mpr hgs
          rw [loop_init g isGoal start c0 fuel hgs'] at hloop
          have hfst := congrArg Prod.fst hloop
          simp only at hfst
          obtain ⟨hg, hvs, st, hw, hsc⟩ :=
            loop_goal_spec hgs' fuel _ c0 (inv_first hgs') cost' v s' hfst
          rw [hwalk] at hw
          have hst : st = steps' := (Option.some.inj hw).symm
          subst hst
          have hlenf : ∃ f, s'.settled.length + 1 = f + 1 := ⟨s'.settled.length, rfl⟩
          obtain ⟨p, c, e, st', hp, hwp, hdec⟩ := walk_decomp hvs hwalk
          refine ⟨?_, walk_first hwalk, ?_, walk_chain hwalk, ?_⟩
          · rw [hdec]
            simp
          · intro a ha gl hgl
            rw [hdec, List.getLast?_concat] at ha
            simp at ha
            subst ha
            rw [← hpath, hdec] at hgl
            have hmap : (st' ++ [(p, c, e, v)]).map (fun a => a.2.2.2)
                = st'.map (fun a => a.2.2.2) ++ [v] := by simp
            rw [hmap] at hgl
            have : start :: (st'.map (fun a => a.2.2.2) ++ [v])
                = (start :: st'.map (fun a => a.2.2.2)) ++ [v] := by simp
            rw [this, List.getLast?_concat] at hgl
            simp at hgl
            rw [hgl]
          · simpa [stepsCost] using hsc

/-- Witness for C3 at the concrete scenario A run. -/
theorem C3_steps_consistency_witness :
    ([(0, 1, 0, 1), (1, 1, 0, 2), (2, 1, 0, 3)] : List (Nat × Nat × Nat × Nat)) ≠ [] ∧
    (∀ a ∈ ([(0, 1, 0, 1), (1, 1, 0, 2), (2, 1, 0, 3)]
        : List (Nat × Nat × Nat × Nat)).head?, a.1 = 0) ∧
    (∀ a ∈ ([(0, 1, 0, 1), (1, 1, 0, 2), (2, 1, 0, 3)]
        : List (Nat × Nat × Nat × Nat)).getLast?,
      ∀ gl ∈ ([0, 1, 2, 3] : List Nat).getLast?, a.2.2.2 = gl) ∧
    List.Chain' (fun a b => a.2.2.2 = b.1)
      ([(0, 1, 0, 1), (1, 1, 0, 2), (2, 1, 0, 3)] : List (Nat × Nat × Nat × Nat)) ∧
    0 + (([(0, 1, 0, 1), (1, 1, 0, 2), (2, 1, 0, 3)]
        : List (Nat × Nat × Nat × Nat)).map (fun a => a.2.1)).sum = 3 :=
  C3_steps_consistency 0 gA goalA 0 20 [0, 1, 2, 3] 3
    [(0, 1, 0, 1), (1, 1, 0, 2), (2, 1, 0, 3)] (by decide) (by decide)

/-- The trace returned by dijkstra is the trace of its loop. -/
theorem dijkstra_trace (start : Nat) (g : Graph) (isGoal : Nat → Bool) (c0 fuel : Nat) :
    (dijkstra start g isGoal c0 fuel).2 = (loop g isGoal fuel (initState start c0)).2 := by
  rcases h : loop g isGoal fuel (initState start c0) with ⟨o, tr⟩
  cases o with
  | goalFound cost v s =>
    simp only [dijkstra, h]
    cases hwalk : walk s.pred start (s.settled.length + 1) v <;> rfl
  | exhausted s => simp [dijkstra, h]
  | fuelOut s => simp [dijkstra, h]

theorem snr_nil (v : Nat) : settledNeverRelaxed v [] = true := rfl

theorem snr_cons {v : Nat} {e : Ev} (he : isSettleOf v e = false) (tr : List Ev) :
    settledNeverRelaxed v (e :: tr) = settledNeverRelaxed v tr := by
  simp [settledNeverRelaxed, List.dropWhile_cons, he]

theorem snr_append_no_settle {v : Nat} {l : List Ev}
    (hl : ∀ e ∈ l, isSettleOf v e = false) (tr : List Ev) :
    settledNeverRelaxed v (l ++ tr) = settledNeverRelaxed v tr := by
  induction l with
  | nil => simp
  | cons e es ih =>
    rw [List.cons_append, snr_cons (hl e (by simp))]
    exact ih fun e' he' => hl e' (List.mem_cons_of_mem _ he')

/-- Once a node is in the settled set, no event of the remaining run settles it
again (a settle event is only emitted for a freshly popped unsettled node). -/
theorem loop_no_settle_settled {g : Graph} {isGoal : Nat → Bool} :
    ∀ (fuel : Nat) (s : DState) (v : Nat), v ∈ s.settled →
    ∀ c, Ev.settle c v ∉ (loop g isGoal fuel s).2 := by
  intro fuel
  induction fuel with
  | zero => intro s v hv c; simp [loop]
  | succ fuel ih =>
    intro s v hv c hmem
    simp only [loop] at hmem
    split at hmem
    · simp at hmem
    · rename_i mr cost₀ node rest hpop
      by_cases hgoal : isGoal node = true
      · rw [if_pos hgoal] at hmem
        simp at hmem
      · rw [if_neg hgoal] at hmem
        by_cases hset : node ∈ s.settled
        · rw [if_pos hset] at hmem
          simp only [List.mem_cons] at hmem
          rcases hmem with h | h
          · exact Ev.noConfusion h
          · exact ih { s with queue := rest } v hv c h
        · rw [if_neg hset] at hmem
          simp only [List.mem_cons, List.mem_append] at hmem
          rcases hmem with h | h | h | h
          · exact Ev.noConfusion h
          · have hnv : node ≠ v := fun hc => hset (hc ▸ hv)
            injection h with h1 h2
            exact hnv h2.symm
          · rcases relaxAll_ev_shape _ _ _ _ h with ⟨c', w, hw⟩ | ⟨w, p, c', l, hw⟩
            · exact Ev.noConfusion hw
            · exact Ev.noConfusion hw
          · exact ih _ v (List.mem_append_left _ hv) c h

/-- Once a node other than start is settled, no event of the remaining run
relaxes it: its record is never rewritten and no entry is pushed for it. -/
theorem loop_no_relax_settled {g : Graph} {isGoal : Nat → Bool} {start c0 : Nat} :
    ∀ (fuel : Nat) (s : DState) (b v : Nat), Inv isGoal start c0 b s →
    v ∈ s.settled → v ≠ start →
    ∀ e ∈ (loop g isGoal fuel s).2, relaxesNode v e = false := by
  intro fuel
  induction fuel with
  | zero => intro s b v _ _ _ e he; simp [loop] at he
  | succ fuel ih =>
    intro s b v hInv hv hvs e he
    simp only [loop] at he
    split at he
    · simp at he
    · rename_i mr cost₀ node rest hpop
      by_cases hgoal : isGoal node = true
      · rw [if_pos hgoal] at he
        simp at he
        subst he
        rfl
      · rw [if_neg hgoal] at he
        by_cases hset : node ∈ s.settled
        · rw [if_pos hset] at he
          simp only [List.mem_cons] at he
          rcases he with h | h
          · subst h; rfl
          · exact ih _ cost₀ v (inv_stale hInv hpop hset) hv hvs e h
        · rw [if_neg hset] at he
          simp only [List.mem_cons, List.mem_append] at he
          have hbc : b ≤ cost₀ := hInv.floor (cost₀, node) (popMin_mem hpop)
          rcases he with h | h | h | h
          · subst h; rfl
          · subst h; rfl
          · obtain ⟨p, ec, l, hrec, hle⟩ := hInv.settledRec v hv hvs
            exact (relaxAll_frozen (g node) s.pred rest
              ⟨p, ec, l, hrec, hle.trans hbc⟩).2 e h
          · exact ih _ cost₀ v
              (inv_settle hInv hpop hset (Bool.eq_false_iff.mpr hgoal))
              (List.mem_append_left _ hv) hvs e h

/-- From any invariant state, every node other than start satisfies the
amended C4 property over the remaining trace: from its first settlement on, it
is never relaxed again. -/
theorem loop_snr {g : Graph} {isGoal : Nat → Bool} {start c0 : Nat} :
    ∀ (fuel : Nat) (s : DState) (b v : Nat), Inv isGoal start c0 b s → v ≠ start →
    settledNeverRelaxed v (loop g isGoal fuel s).2 = true := by
  intro fuel
  induction fuel with
  | zero => intro s b v _ _; simp [loop, snr_nil]
  | succ fuel ih =>
    intro s b v hInv hvs
    simp only [loop]
    split
    · exact snr_nil v
    · rename_i mr cost₀ node rest hpop
      by_cases hgoal : isGoal node = true
      · rw [if_pos hgoal]
        simp only
        rw [snr_cons (by rfl)]
        exact snr_nil v
      · rw [if_neg hgoal]
        by_cases hset : node ∈ s.settled
        · rw [if_pos hset]
          simp only
          rw [snr_cons (by rfl)]
          exact ih _ cost₀ v (inv_stale hInv hpop hset) hvs
        · rw [if_neg hset]
          simp only
          rw [snr_cons (by rfl)]
          have hInv' := @inv_settle g isGoal start c0 b cost₀ node s rest hInv hpop hset (Bool.eq_false_iff.mpr hgoal)
          have hbc : b ≤ cost₀ := hInv.floor (cost₀, node) (popMin_mem hpop)
          by_cases hnode : node = v
          · subst hnode
            have hsv : isSettleOf node (Ev.settle cost₀ node) = true := by
              simp [isSettleOf]
            simp only [settledNeverRelaxed, List.dropWhile_cons, hsv,
              Bool.not_true, if_neg (by simp : ¬ (false = true))]
            simp only [List.drop_one, List.tail_cons]
            rw [List.isEmpty_iff, List.filter_eq_nil_iff]
            intro e he
            simp only [List.mem_append] at he
            rcases he with h | h
            · obtain ⟨p, ec, l, hrec, hle⟩ :=
                hInv.entryRec (cost₀, node) (popMin_mem hpop) hvs
              exact Bool.eq_false_iff.mp
                ((relaxAll_frozen (g node) s.pred rest ⟨p, ec, l, hrec, hle⟩).2 e h)
            · exact Bool.eq_false_iff.mp
                (loop_no_relax_settled fuel _ cost₀ node hInv'
                  (List.mem_append_right _ (by simp)) hvs e h)
          · have hsv : isSettleOf v (Ev.settle cost₀ node) = false := by
              simp [isSettleOf]
              exact hnode
            rw [snr_cons hsv]
            rw [snr_append_no_settle]
            · exact ih _ cost₀ v hInv' hvs
            · intro e he
              rcases relaxAll_ev_shape _ _ _ _ he with ⟨c', w, hw⟩ | ⟨w, p, c', l, hw⟩
              · subst hw; rfl
              · subst hw; rfl

/-- Amended claim C4: once a node other than start is settled, it is never
relaxed again — its predecessor record is not modified and no frontier entry is
pushed for it for the rest of the run. (Start itself can be relaxed after
being settled when an edge leads back into it, because it has no predecessor
record when first relaxed; see the counterexample.) -/
theorem C4_nonstart_settled_never_relaxed (start : Nat) (g : Graph) (isGoal : Nat → Bool)
    (c0 fuel : Nat) (v : Nat) (hv : v ≠ start) :
    settledNeverRelaxed v (dijkstra start g isGoal c0 fuel).2 = true := by
  rw [dijkstra_trace]
  cases fuel with
  | zero => simp only [loop]; exact snr_nil v
  | succ fuel =>
    by_cases hgs : isGoal start = true
    · rw [loop_init_goal g isGoal start c0 fuel hgs]
      simp only
      rw [snr_cons (by rfl)]
      exact snr_nil v
    · have hgs' : isGoal start = false := Bool.eq_false_iff.mpr hgs
      rw [loop_init g isGoal start c0 fuel hgs']
      simp only
      rw [snr_cons (by rfl)]
      have hsv : isSettleOf v (Ev.settle c0 start) = false := by
        simp [isSettleOf]
        exact fun hc => hv hc.symm
      rw [snr_cons hsv]
      rw [snr_append_no_settle]
      · exact loop_snr fuel _ c0 v (inv_first hgs') hv
      · intro e he
        rcases relaxAll_ev_shape _ _ _ _ he with ⟨c', w, hw⟩ | ⟨w, p, c', l, hw⟩
        · subst hw; rfl
        · subst hw; rfl

/-- Witness for the amended C4 at a concrete input: on the loop-back graph,
node 1 (not start) is settled and never relaxed afterwards. -/
theorem C4_nonstart_settled_never_relaxed_witness :
    settledNeverRelaxed 1 (dijkstra 0 gLoopBack (fun _ => false) 0 20).2 = true :=
  C4_nonstart_settled_never_relaxed 0 gLoopBack (fun _ => false) 0 20 1 (by decide)

/-- Amended claim C5: start can be given a predecessor record (when expansion
yields an edge back into start), but that record is never consulted — the
reconstruction walk is insensitive to the predecessor map's value at start —
and start is only ever settled at cost start_cost. -/
theorem C5_start_record_never_used (start : Nat) (g : Graph) (isGoal : Nat → Bool)
    (c0 fuel : Nat) :
    (∀ pred pred' : PredMap, (∀ u, u ≠ start → pred u = pred' u) →
      ∀ f v, walk pred start f v = walk pred' start f v) ∧
    ∀ c, Ev.settle c start ∈ (dijkstra start g isGoal c0 fuel).2 → c = c0 := by
  constructor
  · intro pred pred' hagree f v
    exact walk_indep_start hagree f v
  · intro c hmem
    rw [dijkstra_trace] at hmem
    cases fuel with
    | zero => simp [loop] at hmem
    | succ fuel =>
      by_cases hgs : isGoal start = true
      · rw [loop_init_goal g isGoal start c0 fuel hgs] at hmem
        simp at hmem
      · have hgs' : isGoal start = false := Bool.eq_false_iff.mpr hgs
        rw [loop_init g isGoal start c0 fuel hgs'] at hmem
        simp only [List.mem_cons, List.mem_append] at hmem
        rcases hmem with h | h | h | h
        · exact Ev.noConfusion h
        · simpa using h
        · rcases relaxAll_ev_shape _ _ _ _ h with ⟨c', w, hw⟩ | ⟨w, p, c', l, hw⟩
          · exact Ev.noConfusion hw
          · exact Ev.noConfusion hw
        · exact absurd h (loop_no_settle_settled fuel _ start (by simp) c)

/-- Witness for the amended C5 at concrete inputs: the walk gives the same
result whether or not start (node 0) carries a record, and the settle event of
start in the loop-back run carries cost 0. -/
theorem C5_start_record_never_used_witness :
    walk (fun u => if u = 0 then some (1, 1, 0) else none) 0 3 1 =
      walk (fun _ => none) 0 3 1 ∧ (0 : Nat) = 0 :=
  ⟨(C5_start_record_never_used 0 gLoopBack (fun _ => false) 0 20).1
      (fun u => if u = 0 then some (1, 1, 0) else none) (fun _ => none)
      (fun u hu => by simp [hu]) 3 1,
    (C5_start_record_never_used 0 gLoopBack (fun _ => false) 0 20).2 0 (by decide)⟩

/-! Termination: the measure degSum + queue length strictly decreases. -/

/-- Settling a fresh node below the bound removes its contribution from the
unsettled degree sum. -/
theorem degSum_settle (g : Graph) (n : Nat) (settled : List Nat) (v : Nat)
    (hv : v < n) (hmem : v ∉ settled) :
    degSum g n settled = 1 + (g v).length + degSum g n (settled ++ [v]) := by
  unfold degSum
  have hpt : ∀ u ∈ Finset.range n,
      (if u ∈ settled then 0 else 1 + (g u).length)
        = (if u ∈ settled ++ [v] then 0 else 1 + (g u).length)
          + (if u = v then 1 + (g v).length else 0) := by
    intro u _
    by_cases huv : u = v
    · subst huv
      simp [hmem]
    · by_cases hus : u ∈ settled <;> simp [hus, huv]
  rw [Finset.sum_congr rfl hpt, Finset.sum_add_distrib]
  rw [Finset.sum_ite_eq' (Finset.range n) v (fun _ => 1 + (g v).length)]
  simp [Finset.mem_range.mpr hv]
  omega

/-- With fuel exceeding the measure degSum + queue length, the loop never runs
out of fuel: every iteration either consumes one queue entry or settles one
more node below the bound, shrinking the measure. -/
theorem loop_no_fuelOut {g : Graph} {isGoal : Nat → Bool} {n : Nat}
    (hbound : ∀ u, u < n → ∀ e ∈ g u, e.1 < n) :
    ∀ (fuel : Nat) (s : DState),
    (∀ e ∈ s.queue, e.2 < n) → (∀ v ∈ s.settled, v < n) →
    degSum g n s.settled + s.queue.length < fuel →
    ∀ s', (loop g isGoal fuel s).1 ≠ LoopOut.fuelOut s' := by
  intro fuel
  induction fuel with
  | zero => intro s _ _ hm; omega
  | succ fuel ih =>
    intro s hq hs hm s'
    simp only [loop]
    split
    · simp
    · rename_i mr cost₀ node rest hpop
      have hql : s.queue.length = rest.length + 1 := popMin_length hpop
      by_cases hgoal : isGoal node = true
      · rw [if_pos hgoal]
        simp
      · rw [if_neg hgoal]
        by_cases hset : node ∈ s.settled
        · rw [if_pos hset]
          apply ih { s with queue := rest }
          · intro e he; exact hq e (popMin_rest_subset hpop he)
          · exact hs
          · simp only
            omega
        · rw [if_neg hset]
          have hnode : node < n := hq (cost₀, node) (popMin_mem hpop)
          obtain ⟨adds, hqeq, hpush, hlen, hprop⟩ :=
            relaxAll_adds (g node) s.pred rest
          apply ih
          · intro e he
            rw [hqeq] at he
            rcases List.mem_append.mp he with h | h
            · obtain ⟨c, l, hcl, _⟩ := hprop e h
              exact hbound node hnode (e.2, c, l) hcl
            · exact hq e (popMin_rest_subset hpop h)
          · intro v hv
            rcases List.mem_append.mp hv with h | h
            · exact hs v h
            · simp at h
              subst h
              exact hnode
          · have hds := degSum_settle g n s.settled node hnode hset
            have hql2 : (relaxAll node cost₀ (g node) s.pred rest).2.1.length
                = adds.length + rest.length := by rw [hqeq]; simp
            simp only [hql2]
            omega

/-- In a run started from a queue of reachable nodes, a found goal node is
reachable and satisfies the goal predicate. -/
theorem loop_reach {g : Graph} {isGoal : Nat → Bool} {start : Nat} :
    ∀ (fuel : Nat) (s : DState), (∀ e ∈ s.queue, Reach g start e.2) →
    ∀ cost v s', (loop g isGoal fuel s).1 = LoopOut.goalFound cost v s' →
    Reach g start v ∧ isGoal v = true := by
  intro fuel
  induction fuel with
  | zero => intro s _ cost v s' h; simp [loop] at h
  | succ fuel ih =>
    intro s hq cost v s' h
    simp only [loop] at h
    split at h
    · simp at h
    · rename_i mr cost₀ node rest hpop
      by_cases hgoal : isGoal node = true
      · rw [if_pos hgoal] at h
        simp only [LoopOut.goalFound.injEq] at h
        obtain ⟨h1, h2, h3⟩ := h
        subst h2
        exact ⟨hq (cost₀, node) (popMin_mem hpop), hgoal⟩
      · rw [if_neg hgoal] at h
        by_cases hset : node ∈ s.settled
        · rw [if_pos hset] at h
          apply ih { s with queue := rest } _ cost v s' h
          intro e he
          exact hq e (popMin_rest_subset hpop he)
        · rw [if_neg hset] at h
          apply ih _ _ cost v s' h
          intro e he
          obtain ⟨adds, hqeq, hpush, hlen, hprop⟩ := relaxAll_adds (g node) s.pred rest
          rw [hqeq] at he
          rcases List.mem_append.mp he with hmem | hmem
          · obtain ⟨c, l, hcl, _⟩ := hprop e hmem
            exact Reach.step (hq (cost₀, node) (popMin_mem hpop)) hcl
          · exact hq e (popMin_rest_subset hpop hmem)

/-- Claim C9: on a graph whose nodes stay below a bound n, a run with fuel
above the initial measure completes: it never gets stuck, neither in the main
loop (fuel bound) nor in the reconstruction walk (settled count + 1 steps
always suffice). -/
theorem C9_terminates (start : Nat) (g : Graph) (isGoal : Nat → Bool) (c0 n fuel : Nat)
    (hstart : start < n) (hbound : ∀ u, u < n → ∀ e ∈ g u, e.1 < n)
    (hfuel : degSum g n [] + 1 < fuel) :
    (dijkstra start g isGoal c0 fuel).1 ≠ DResult.stuck := by
  rcases hloop : loop g isGoal fuel (initState start c0) with ⟨o, tr⟩
  cases o with
  | exhausted s' => simp [dijkstra, hloop]
  | fuelOut s' =>
    exfalso
    apply loop_no_fuelOut hbound fuel (initState start c0) _ _ _ s'
    · rw [hloop]
    · intro e he
      simp [initState] at he
      subst he
      exact hstart
    · intro v hv
      simp [initState] at hv
    · simpa [initState] using hfuel
  | goalFound cost v s' =>
    simp only [dijkstra, hloop]
    cases fuel with
    | zero => simp [loop] at hloop
    | succ fuel =>
      by_cases hgs : isGoal start = true
      · rw [loop_init_goal g isGoal start c0 fuel hgs] at hloop
        simp only [Prod.mk.injEq, LoopOut.goalFound.injEq] at hloop
        obtain ⟨⟨h1, h2, h3⟩, h4⟩ := hloop
        subst h2
        subst h3
        rw [walk_start]
        simp
      · have hgs' : isGoal start = false := Bool.eq_false_iff.mpr hgs
        rw [loop_init g isGoal start c0 fuel hgs'] at hloop
        have hfst := congrArg Prod.fst hloop
        simp only at hfst
        obtain ⟨_, _, st, hw, _⟩ :=
          loop_goal_spec hgs' fuel _ c0 (inv_first hgs') cost v s' hfst
        rw [hw]
        simp

/-- Witness for C9 at the concrete scenario A run (bound 4, fuel 20). -/
theorem C9_terminates_witness : (dijkstra 0 gA goalA 0 20).1 ≠ DResult.stuck :=
  C9_terminates 0 gA goalA 0 4 20 (by omega)
    (by intro u hu; interval_cases u <;> decide) (by decide)

/-- Claim C8: when no node reachable from start satisfies the goal predicate,
an adequately fueled run returns the absent result, which no found result
equals. -/
theorem C8_unreachable_goal_notFound (start : Nat) (g : Graph) (isGoal : Nat → Bool)
    (c0 n fuel : Nat)
    (hstart : start < n) (hbound : ∀ u, u < n → ∀ e ∈ g u, e.1 < n)
    (hfuel : degSum g n [] + 1 < fuel)
    (hnogoal : ∀ v, Reach g start v → isGoal v = false) :
    (dijkstra start g isGoal c0 fuel).1 = DResult.notFound ∧
    ∀ path cost steps, DResult.notFound ≠ DResult.found path cost steps := by
  refine ⟨?_, fun path cost steps h => DResult.noConfusion h⟩
  rcases hloop : loop g isGoal fuel (initState start c0) with ⟨o, tr⟩
  cases o with
  | exhausted s' => simp [dijkstra, hloop]
  | fuelOut s' =>
    exfalso
    apply loop_no_fuelOut hbound fuel (initState start c0) _ _ _ s'
    · rw [hloop]
    · intro e he
      simp [initState] at he
      subst he
      exact hstart
    · intro v hv
      simp [initState] at hv
    · simpa [initState] using hfuel
  | goalFound cost v s' =>
    exfalso
    have hreach : Reach g start v ∧ isGoal v = true := by
      apply loop_reach fuel (initState start c0) _ cost v s' (by rw [hloop])
      intro e he
      simp [initState] at he
      subst he
      exact Reach.refl
    rw [hnogoal v hreach.1] at hreach
    exact Bool.noConfusion hreach.2

/-- Witness for C8 at a concrete input: the disconnected graph with goal node 5
unreachable from start 0. -/
theorem C8_unreachable_goal_notFound_witness :
    (dijkstra 0 gDisc (fun v => v == 5) 0 10).1 = DResult.notFound ∧
    ∀ path cost steps, DResult.notFound ≠ DResult.found path cost steps :=
  C8_unreachable_goal_notFound 0 gDisc (fun v => v == 5) 0 2 10 (by omega)
    (by intro u hu; interval_cases u <;> decide) (by decide)
    (by
      intro v h
      have hle : v ≤ 1 := by
        induction h with
        | refl => omega
        | step hu he ih =>
          rename_i u w c l
          interval_cases u
          · simp [gDisc] at he
            omega
          · simp [gDisc] at he
      simp
      omega)

/-! Facts about the first pop of a node in a trace. -/

theorem firstPopOf_nil (v : Nat) : firstPopOf [] v = none := rfl

theorem firstPopOf_pop_eq (c v : Nat) (tr : List Ev) :
    firstPopOf (Ev.pop c v :: tr) v = some c := by
  simp [firstPopOf, popsOf]

theorem firstPopOf_pop_ne {w v : Nat} (h : w ≠ v) (c : Nat) (tr : List Ev) :
    firstPopOf (Ev.pop c w :: tr) v = firstPopOf tr v := by
  simp [firstPopOf, popsOf, h]

theorem firstPopOf_no_pops {l : List Ev} (hl : popsOf l = []) (tr : List Ev) (v : Nat) :
    firstPopOf (l ++ tr) v = firstPopOf tr v := by
  simp [firstPopOf, popsOf_append, hl]

theorem firstPopOf_settle (c w v : Nat) (tr : List Ev) :
    firstPopOf (Ev.settle c w :: tr) v = firstPopOf tr v := by
  simp [firstPopOf, popsOf]

/-- Main induction for claim C10, from any state whose heap respects a floor:
all popped and pushed costs respect the floor, the popped costs are
nondecreasing, the first pop of any node undercuts all of its present heap
entries, and the first pop of any node undercuts every cost ever pushed for it. -/
theorem loop_pop_push_spec {g : Graph} {isGoal : Nat → Bool} :
    ∀ (fuel : Nat) (s : DState) (b : Nat),
    (∀ e ∈ s.queue, b ≤ e.1) →
    (∀ e ∈ popsOf (loop g isGoal fuel s).2, b ≤ e.1) ∧
    List.Chain' (fun x y => x ≤ y)
      ((popsOf (loop g isGoal fuel s).2).map Prod.fst) ∧
    (∀ e ∈ pushesOf (loop g isGoal fuel s).2, b ≤ e.1) ∧
    (∀ e ∈ s.queue, ∀ c, firstPopOf (loop g isGoal fuel s).2 e.2 = some c → c ≤ e.1) ∧
    (∀ v c c', firstPopOf (loop g isGoal fuel s).2 v = some c →
      (c', v) ∈ pushesOf (loop g isGoal fuel s).2 → c ≤ c') := by
  intro fuel
  induction fuel with
  | zero =>
    intro s b hfloor
    simp [loop, popsOf, pushesOf, firstPopOf]
  | succ fuel ih =>
    intro s b hfloor
    simp only [loop]
    split
    · simp [popsOf, pushesOf, firstPopOf]
    · rename_i mr cost₀ node rest hpop
      have hbc : b ≤ cost₀ := hfloor (cost₀, node) (popMin_mem hpop)
      have hrestfloor : ∀ e ∈ rest, cost₀ ≤ e.1 := fun e he =>
        lexLe_fst (popMin_min hpop e (popMin_rest_subset hpop he))
      by_cases hgoal : isGoal node = true
      · rw [if_pos hgoal]
        simp only [popsOf, pushesOf]
        refine ⟨?_, ?_, ?_, ?_, ?_⟩
        · intro e he
          simp at he
          subst he
          exact hbc
        · simp
        · intro e he
          simp [popsOf, pushesOf] at he
        · intro e he c hc
          by_cases hev : e.2 = node
          · rw [hev, firstPopOf_pop_eq] at hc
            have : c = cost₀ := (Option.some.inj hc).symm
            subst this
            exact lexLe_fst (popMin_min hpop e he)
          · rw [firstPopOf_pop_ne (fun hcq => hev hcq.symm)] at hc
            simp [firstPopOf, popsOf] at hc
        · intro v c c' hc hmem
          simp [pushesOf] at hmem
      · rw [if_neg hgoal]
        by_cases hset : node ∈ s.settled
        · rw [if_pos hset]
          simp only
          obtain ⟨hpops, hchain, hpushes, hqueue, hpush2⟩ :=
            ih { s with queue := rest } cost₀ hrestfloor
          simp only [popsOf, pushesOf]
          refine ⟨?_, ?_, fun e he => hbc.trans (hpushes e he), ?_, ?_⟩
          · intro e he
            simp only [List.mem_cons] at he
            rcases he with h | h
            · subst h; exact hbc
            · exact hbc.trans (hpops e h)
          · rw [List.map_cons, List.chain'_cons']
            refine ⟨?_, hchain⟩
            intro y hy
            rcases hm : (popsOf (loop g isGoal fuel { s with queue := rest }).2).head? with
              _ | e0
            · rw [List.head?_map, hm] at hy
              simp at hy
            · rw [List.head?_map, hm] at hy
              simp at hy
              subst hy
              exact hpops e0 (List.mem_of_mem_head? hm)
          · intro e he c hc
            by_cases hev : e.2 = node
            · rw [hev, firstPopOf_pop_eq] at hc
              have : c = cost₀ := (Option.some.inj hc).symm
              subst this
              exact lexLe_fst (popMin_min hpop e he)
            · rw [firstPopOf_pop_ne (fun hcq => hev hcq.symm)] at hc
              have hrest : e ∈ rest := by
                apply popMin_mem_rest hpop he
                intro hcontra
                exact hev (congrArg Prod.snd hcontra)
              exact hqueue e hrest c hc
          · intro v c c' hc hmem
            by_cases hv : v = node
            · subst hv
              rw [firstPopOf_pop_eq] at hc
              have : c = cost₀ := (Option.some.inj hc).symm
              subst this
              exact hpushes (c', v) hmem
            · rw [firstPopOf_pop_ne (fun hcq => hv hcq.symm)] at hc
              exact hpush2 v c c' hc hmem
        · rw [if_neg hset]
          simp only
          obtain ⟨adds, hqeq, haddpush, hlen, hprop⟩ := relaxAll_adds (g node) s.pred rest
          have hq'floor : ∀ e ∈ (relaxAll node cost₀ (g node) s.pred rest).2.1,
              cost₀ ≤ e.1 := by
            intro e he
            rw [hqeq] at he
            rcases List.mem_append.mp he with h | h
            · obtain ⟨c, l, _, hc⟩ := hprop e h
              omega
            · exact hrestfloor e h
          set rx := relaxAll node cost₀ (g node) s.pred rest with hrx
          set s1 : DState := ⟨rx.2.1, rx.1, s.settled ++ [node]⟩ with hs1
          obtain ⟨hpops, hchain, hpushes, hqueue, hpush2⟩ := ih s1 cost₀ hq'floor
          have hnore : popsOf rx.2.2 = [] := by
            rw [hrx]
            exact @relaxAll_no_pops node cost₀ (g node) s.pred rest
          have hpopstr : popsOf (Ev.pop cost₀ node :: Ev.settle cost₀ node ::
              (rx.2.2 ++ (loop g isGoal fuel s1).2))
              = (cost₀, node) :: popsOf (loop g isGoal fuel s1).2 := by
            simp [popsOf, popsOf_append, hnore]
          have hpushtr : ∀ a, a ∈ pushesOf (Ev.pop cost₀ node :: Ev.settle cost₀ node ::
              (rx.2.2 ++ (loop g isGoal fuel s1).2)) ↔
              a ∈ adds ∨ a ∈ pushesOf (loop g isGoal fuel s1).2 := by
            intro a
            simp only [pushesOf, pushesOf_append, List.mem_append]
            rw [← haddpush a]
          have hfp : ∀ v, v ≠ node → firstPopOf (Ev.pop cost₀ node :: Ev.settle cost₀ node ::
              (rx.2.2 ++ (loop g isGoal fuel s1).2)) v
              = firstPopOf (loop g isGoal fuel s1).2 v := by
            intro v hv
            rw [firstPopOf_pop_ne (fun hcq => hv hcq.symm), firstPopOf_settle,
              firstPopOf_no_pops hnore]
          have hfpe : firstPopOf (Ev.pop cost₀ node :: Ev.settle cost₀ node ::
              (rx.2.2 ++ (loop g isGoal fuel s1).2)) node = some cost₀ :=
            firstPopOf_pop_eq ..
          refine ⟨?_, ?_, ?_, ?_, ?_⟩
          · intro e he
            rw [hpopstr] at he
            simp only [List.mem_cons] at he
            rcases he with h | h
            · subst h; exact hbc
            · exact hbc.trans (hpops e h)
          · rw [hpopstr, List.map_cons, List.chain'_cons']
            refine ⟨?_, hchain⟩
            intro y hy
            rcases hm : (popsOf (loop g isGoal fuel
                ⟨(relaxAll node cost₀ (g node) s.pred rest).2.1,
                 (relaxAll node cost₀ (g node) s.pred rest).1,
                 s.settled ++ [node]⟩).2).head? with _ | e0
            · rw [List.head?_map, hm] at hy
              simp at hy
            · rw [List.head?_map, hm] at hy
              simp at hy
              subst hy
              exact hpops e0 (List.mem_of_mem_head? hm)
          · intro e he
            rw [hpushtr e] at he
            rcases he with h | h
            · obtain ⟨c, l, _, hc⟩ := hprop e h
              omega
            · exact hbc.trans (hpushes e h)
          · intro e he c hc
            by_cases hev : e.2 = node
            · rw [hev, hfpe] at hc
              have : c = cost₀ := (Option.some.inj hc).symm
              subst this
              exact lexLe_fst (popMin_min hpop e he)
            · rw [hfp e.2 hev] at hc
              have hrest : e ∈ rest := by
                apply popMin_mem_rest hpop he
                intro hcontra
                exact hev (congrArg Prod.snd hcontra)
              apply hqueue e _ c hc
              show e ∈ rx.2.1
              rw [hqeq]
              exact List.mem_append_right _ hrest
          · intro v c c' hc hmem
            rw [hpushtr (c', v)] at hmem
            by_cases hv : v = node
            · subst hv
              rw [hfpe] at hc
              have : c = cost₀ := (Option.some.inj hc).symm
              subst this
              rcases hmem with h | h
              · obtain ⟨cc, l, _, hcc⟩ := hprop (c', v) h
                omega
              · exact hpushes (c', v) h
            · rw [hfp v hv] at hc
              rcases hmem with h | h
              · apply hqueue (c', v) _ c hc
                show (c', v) ∈ rx.2.1
                rw [hqeq]
                exact List.mem_append_left _ h
              · exact hpush2 v c c' hc h

/-- Claim C10: over any run, the costs popped from the frontier are
nondecreasing, and the first pop of any node carries a cost at most that of
every entry ever pushed for that node. -/
theorem C10_pop_monotone (start : Nat) (g : Graph) (isGoal : Nat → Bool) (c0 fuel : Nat) :
    List.Chain' (fun x y => x ≤ y)
      ((popsOf (dijkstra start g isGoal c0 fuel).2).map Prod.fst) ∧
    ∀ v c c', firstPopOf (dijkstra start g isGoal c0 fuel).2 v = some c →
      (c', v) ∈ pushesOf (dijkstra start g isGoal c0 fuel).2 → c ≤ c' := by
  rw [dijkstra_trace]
  obtain ⟨_, hchain, _, _, hpush⟩ :=
    @loop_pop_push_spec g isGoal fuel (initState start c0) 0
      (fun e _ => Nat.zero_le _)
  exact ⟨hchain, hpush⟩

/-- Witness for C10 at the scenario A run: node 2 is pushed at costs 4 and 2
and first popped at 2. -/
theorem C10_pop_monotone_witness : (2 : Nat) ≤ 4 :=
  (C10_pop_monotone 0 gA goalA 0 20).2 2 2 4 (by decide) (by decide)

end PyUtils
